import Mathlib

/-!
Verification of the mobster TCP room-server's client registry and event
processing, shallowly embedded from `client.go` and `server.go`.

Go maps are modelled by their observable behaviour: `map[*Client]bool` as a
duplicate-free list of clients (insertion order), `map[string]*Client` as a
function `String → Option Client` (missing key ↦ `none`), and
`map[string][]*Client` as a function `String → List Client` (missing key ↦ the
nil slice `[]`).  Go pointer identity is modelled by an `id` field on `Client`:
two clients with different `id` are distinct pointers even when `user` and
`room` coincide.  A Go panic — a `nil`-pointer dereference, or a
slice-bounds violation as in `Remove`'s splice on an empty bucket — is
modelled by an operation returning `none`.
-/

namespace Mobster

/-- The `Client` struct of `client.go` (the connection handle is not needed for
the registry's behaviour; `id` models pointer identity). -/
structure Client where
  user : String
  room : String
  id : Nat
deriving DecidableEq

/-- The `ClientHolder` struct: three views over the same set of clients. -/
structure ClientHolder where
  clients : List Client
  clientsByName : String → Option Client
  clientsByRoom : String → List Client

/-- `NewClientHolder`: all three views empty. -/
def NewClientHolder : ClientHolder :=
  { clients := []
    clientsByName := fun _ => none
    clientsByRoom := fun _ => [] }

/-- `ClientHolder.Add`: insert into all three views.  The Go set insert
`h.clients[c] = true` is idempotent, hence the membership guard; the room
bucket is extended at the end (`append`); the name key is overwritten. -/
def ClientHolder.Add (h : ClientHolder) (c : Client) : ClientHolder :=
  { clients := if c ∈ h.clients then h.clients else h.clients ++ [c]
    clientsByName := fun n => if n = c.user then some c else h.clientsByName n
    clientsByRoom := fun r =>
      if r = c.room then h.clientsByRoom r ++ [c] else h.clientsByRoom r }

/-- The position computed by the loop in `ClientHolder.Remove`: `pos` is the
index of the first occurrence of `c` (the loop breaks there), and keeps its
zero value when `c` does not occur. -/
def removePos (l : List Client) (c : Client) : Nat :=
  match l.findIdx? (fun d => d == c) with
  | some i => i
  | none => 0

/-- The value computed by `ClientHolder.Remove` when the splice
`append(room[:pos], room[pos+1:]...)` is in range: splice position `pos` out
of the room bucket, then delete the name key and the set entry.  The Go code
does not check that `c` is present; the slice expression requires
`pos+1 ≤ len(room)` (of which `pos ≤ len(room)` for `room[:pos]` is a
consequence), which holds exactly when the bucket is non-empty, since `pos`
defaults to `0`; `RemoveChecked` below models that bound check, and is the
faithful entry point for an arbitrary state. -/
def ClientHolder.Remove (h : ClientHolder) (c : Client) : ClientHolder :=
  { clients := h.clients.filter (fun d => d != c)
    clientsByName := fun n => if n = c.user then none else h.clientsByName n
    clientsByRoom := fun r =>
      if r = c.room then
        (h.clientsByRoom c.room).take (removePos (h.clientsByRoom c.room) c) ++
          (h.clientsByRoom c.room).drop (removePos (h.clientsByRoom c.room) c + 1)
      else h.clientsByRoom r }

/-- `ClientHolder.Remove` with Go's slice-bound check made explicit: when
`pos+1 > len(room)` — exactly the case of an unset or empty bucket, where
`pos` keeps its zero value — Go panics with `slice bounds out of range
[1:0]`, modelled by `none`; otherwise the result is the `Remove` value. -/
def ClientHolder.RemoveChecked (h : ClientHolder) (c : Client) : Option ClientHolder :=
  if removePos (h.clientsByRoom c.room) c + 1 ≤ (h.clientsByRoom c.room).length then
    some (h.Remove c)
  else none

/-- One iteration of the loop in `ClientHolder.RemoveRoom`: delete the name
key and the set entry of one client of the bucket. -/
def removeRoomStep (acc : ClientHolder) (c : Client) : ClientHolder :=
  { acc with
    clients := acc.clients.filter (fun d => d != c)
    clientsByName := fun n => if n = c.user then none else acc.clientsByName n }

/-- `ClientHolder.RemoveRoom`: for every client of the room's bucket delete its
name key and set entry, then delete the bucket itself. -/
def ClientHolder.RemoveRoom (h : ClientHolder) (room : String) : ClientHolder :=
  let h1 := (h.clientsByRoom room).foldl removeRoomStep h
  { h1 with clientsByRoom := fun r => if r = room then [] else h1.clientsByRoom r }

/-- `ClientHolder.GetAll` (map iteration order is modelled as insertion
order). -/
def ClientHolder.GetAll (h : ClientHolder) : List Client :=
  h.clients

/-- `ClientHolder.GetByName`; the Go `nil` result is `none`. -/
def ClientHolder.GetByName (h : ClientHolder) (user : String) : Option Client :=
  h.clientsByName user

/-- `ClientHolder.GetByRoom`; a missing bucket is the nil slice `[]`. -/
def ClientHolder.GetByRoom (h : ClientHolder) (room : String) : List Client :=
  h.clientsByRoom room

/-- `ClientHolder.GetRoomUsers`. -/
def ClientHolder.GetRoomUsers (h : ClientHolder) (room : String) : List String :=
  (h.clientsByRoom room).map Client.user

/-- `ClientHolder.GetRoomCount`. -/
def ClientHolder.GetRoomCount (h : ClientHolder) (room : String) : Nat :=
  (h.clientsByRoom room).length

/-- `ClientHolder.Count`. -/
def ClientHolder.Count (h : ClientHolder) : Nat :=
  h.clients.length

/-- Well-formedness of a registry state: no duplicate set entries, user names
unique among present clients, the name view is exactly "first (hence only)
present client with that name", and each room bucket is exactly the present
clients of that room in insertion order. -/
def WF (h : ClientHolder) : Prop :=
  h.clients.Nodup ∧
  (∀ c ∈ h.clients, ∀ d ∈ h.clients, c.user = d.user → c = d) ∧
  (∀ n, h.clientsByName n = h.clients.find? (fun c => c.user == n)) ∧
  (∀ r, h.clientsByRoom r = h.clients.filter (fun c => c.room == r))

/-- A registry mutation of the processing loop: `add` on a join event,
`remove` on a disconnect event. -/
inductive RegOp where
  | add : Client → RegOp
  | remove : Client → RegOp
deriving DecidableEq

/-- Apply one registry operation. -/
def applyOp (h : ClientHolder) : RegOp → ClientHolder
  | RegOp.add c => h.Add c
  | RegOp.remove c => h.Remove c

/-- An `add` is legal when the client's user name is unique among the
currently present clients; a `remove` is legal when the client is currently
present (the situations quantified over by the claim). -/
def legalOp (h : ClientHolder) : RegOp → Bool
  | RegOp.add c => h.clients.all (fun d => d.user != c.user)
  | RegOp.remove c => h.clients.contains c

/-- Run a sequence of registry operations. -/
def runOps (h : ClientHolder) : List RegOp → ClientHolder
  | [] => h
  | op :: ops => runOps (applyOp h op) ops

/-- Every operation of the sequence is legal in the state it runs in. -/
def legalRun (h : ClientHolder) : List RegOp → Bool
  | [] => true
  | op :: ops => legalOp h op && legalRun (applyOp h op) ops

/-- Number of add operations in a sequence. -/
def numAdds : List RegOp → Nat
  | [] => 0
  | RegOp.add _ :: ops => numAdds ops + 1
  | RegOp.remove _ :: ops => numAdds ops

/-- Number of remove operations in a sequence. -/
def numRemoves : List RegOp → Nat
  | [] => 0
  | RegOp.add _ :: ops => numRemoves ops
  | RegOp.remove _ :: ops => numRemoves ops + 1

/-- The view-consistency part of claim C3: `byName` returns exactly the
present client with that name, `byRoom` lists exactly the present clients of
that room in insertion order, and every present client appears under exactly
one name key and in exactly one room bucket. -/
def RegistryConsistent (h : ClientHolder) : Prop :=
  (∀ n c, h.GetByName n = some c ↔ (c ∈ h.GetAll ∧ c.user = n)) ∧
  (∀ r, h.GetByRoom r = h.GetAll.filter (fun c => c.room == r)) ∧
  (∀ c ∈ h.GetAll,
    (∀ n, h.GetByName n = some c ↔ n = c.user) ∧
    (∀ r, c ∈ h.GetByRoom r ↔ r = c.room))

/-- Observable server state for the command operations of `server.go`: the
registry plus the externally visible effects (stream writes, stream closes,
invocations of the `OnDisconnect` callback, each recorded in order). -/
structure ServerState where
  holder : ClientHolder
  writes : List (Client × String)
  closes : List Client
  disconnectCalls : List (String × String)

/-- `Ops.SendTo` (synchronous command handle): `GetByName` then an unguarded
`c.conn.Write`.  The `none` result models the Go nil-pointer dereference
panic that occurs when the user is absent. -/
def Ops.SendTo (s : ServerState) (user message : String) : Option ServerState :=
  match s.holder.GetByName user with
  | none => none
  | some c => some { s with writes := s.writes ++ [(c, message)] }

/-- The `responses` case of `processingLoop` (asynchronous `Server.SendTo`
path): `GetByName` guarded by a nil check; absence is ignored. -/
def Server.processResponse (s : ServerState) (user message : String) : ServerState :=
  match s.holder.GetByName user with
  | none => s
  | some c => { s with writes := s.writes ++ [(c, message)] }

/-- `Ops.Disconnect` (synchronous command handle): `GetByName`, then an
unguarded `c.conn.Close()` and `Remove`; no disconnect callback is invoked.
The `none` result models the nil-pointer dereference panic on an absent
user. -/
def Ops.Disconnect (s : ServerState) (user : String) : Option ServerState :=
  match s.holder.GetByName user with
  | none => none
  | some c =>
    some { s with holder := s.holder.Remove c, closes := s.closes ++ [c] }

/-- The `disconnects` case of `processingLoop` (asynchronous
`Server.Disconnect` path): nil-checked; close, remove, then invoke the
disconnect callback. -/
def Server.processDisconnect (s : ServerState) (user : String) : ServerState :=
  match s.holder.GetByName user with
  | none => s
  | some c =>
    { s with
      holder := s.holder.Remove c
      closes := s.closes ++ [c]
      disconnectCalls := s.disconnectCalls ++ [(c.user, c.room)] }

/-- The loop body of `Ops.DisconnectRoom`: `Ops.Disconnect` for each user
name of an already-taken snapshot, propagating a panic. -/
def Ops.DisconnectList : List String → ServerState → Option ServerState
  | [], s => some s
  | u :: us, s =>
    match Ops.Disconnect s u with
    | none => none
    | some s1 => Ops.DisconnectList us s1

/-- `Ops.DisconnectRoom`: snapshot the room's user names, then disconnect
each in turn. -/
def Ops.DisconnectRoom (s : ServerState) (room : String) : Option ServerState :=
  Ops.DisconnectList (s.holder.GetRoomUsers room) s

/-- One iteration of the `shutdownNow` case of `processingLoop`: close the
stream, remove the client, invoke the disconnect callback. -/
def shutdownStep (s : ServerState) (c : Client) : ServerState :=
  { s with
    holder := s.holder.Remove c
    closes := s.closes ++ [c]
    disconnectCalls := s.disconnectCalls ++ [(c.user, c.room)] }

/-- The `shutdownNow` case of `processingLoop`: iterate `shutdownStep` over
the `GetAll` snapshot, then the loop returns. -/
def Server.processShutdown (s : ServerState) : ServerState :=
  s.holder.GetAll.foldl shutdownStep s

/-- Whitespace predicate of `strings.TrimSpace`, restricted to the ASCII
whitespace relevant to this text protocol.  Wire-level byte strings are
modelled as `List Char`. -/
def isSpace (c : Char) : Bool :=
  c = ' ' || c = '\t' || c = '\n' || c = '\r'

/-- Go `strings.TrimSpace`: drop leading and trailing whitespace of the whole
buffer. -/
def trimSpace (s : List Char) : List Char :=
  ((s.dropWhile isSpace).reverse.dropWhile isSpace).reverse

/-- Go `strings.Split` for a one-character separator (the source splits on
`" "` and on `"\n"`, both single characters): `Split("", sep) = [""]`, and in
general one (possibly empty) segment per separator occurrence plus one. -/
def splitSep (sep : Char) : List Char → List (List Char)
  | [] => [[]]
  | c :: rest =>
    if c = sep then [] :: splitSep sep rest
    else (c :: (splitSep sep rest).headD []) :: (splitSep sep rest).tail

/-- The default `OnAuth` of `NewServer`: split the line on single spaces,
require exactly three tokens with first token `"a"`, and return the second
and third; `none` models the returned error. -/
def OnAuth (message : List Char) : Option (List Char × List Char) :=
  if (splitSep ' ' message).length ≠ 3 ∨ (splitSep ' ' message).headD [] ≠ ['a'] then
    none
  else some ((splitSep ' ' message).getD 1 [], (splitSep ' ' message).getD 2 [])

/-- The `read` helper of `server.go`: the received buffer trimmed of
surrounding whitespace as a whole (`strings.TrimSpace`). -/
def read (buf : List Char) : List Char :=
  trimSpace buf

/-- The message-splitting step of `handleConnection`: one message per
newline-separated segment of the read (hence whole-buffer-trimmed) buffer. -/
def connMessages (buf : List Char) : List (List Char) :=
  splitSep '\n' (read buf)

/-- The requests submitted to the processing loop for one read buffer, each
attributed to the connection's client, in buffer order. -/
def connRequests (c : Client) (buf : List Char) : List (Client × List Char) :=
  (connMessages buf).map (fun m => (c, m))

/-- Sample clients and states used as concrete witnesses. -/
def alice : Client := ⟨"alice", "room1", 0⟩

def bob : Client := ⟨"bob", "room1", 1⟩

def carol : Client := ⟨"carol", "room2", 2⟩

def sampleHolder : ClientHolder := ((NewClientHolder.Add alice).Add bob).Add carol

def emptyServer : ServerState := ⟨NewClientHolder, [], [], []⟩

def sampleServer : ServerState := ⟨sampleHolder, [], [], []⟩

def ops0 : List RegOp := [RegOp.add alice, RegOp.add bob, RegOp.remove alice]

/-- A reachable registry with two clients sharing a user name in different
rooms (nothing in the code prevents duplicate-name joins). -/
def dupHolder : ClientHolder :=
  (NewClientHolder.Add ⟨"u", "r1", 0⟩).Add ⟨"u", "r2", 1⟩

/-- The behaviour claimed (amended) for processing the shutdown event: the
registry ends empty in all three views, every registered client's stream is
closed exactly once, and the disconnect callback runs exactly once per
registered client, in registry order. -/
def ShutdownSpec (s : ServerState) : Prop :=
  (Server.processShutdown s).holder.Count = 0 ∧
  (∀ n, (Server.processShutdown s).holder.GetByName n = none) ∧
  (∀ r, (Server.processShutdown s).holder.GetByRoom r = []) ∧
  (Server.processShutdown s).writes = s.writes ∧
  (Server.processShutdown s).closes = s.closes ++ s.holder.GetAll ∧
  (Server.processShutdown s).disconnectCalls =
    s.disconnectCalls ++ s.holder.GetAll.map (fun c => (c.user, c.room)) ∧
  (∀ c ∈ s.holder.GetAll,
    (Server.processShutdown s).closes.count c = s.closes.count c + 1)

/-- The behaviour claimed for `Ops.DisconnectRoom`: it completes without
fault, equals the sequence of `Ops.Disconnect` calls over the user-name
snapshot of the room, empties the room, closes exactly the streams of the
room's clients, and leaves the clients of every other room untouched in
every view. -/
def DisconnectRoomSpec (s : ServerState) (room : String) : Prop :=
  ∃ s1, Ops.DisconnectRoom s room = some s1 ∧
    Ops.DisconnectList (s.holder.GetRoomUsers room) s = some s1 ∧
    s1.holder.GetRoomCount room = 0 ∧
    (∀ r, r ≠ room → s1.holder.GetByRoom r = s.holder.GetByRoom r) ∧
    (∀ c ∈ s.holder.clients, c.room ≠ room →
      c ∈ s1.holder.clients ∧ s1.holder.GetByName c.user = some c) ∧
    s1.writes = s.writes ∧
    s1.closes = s.closes ++ s.holder.GetByRoom room ∧
    WF s1.holder

/-- The behaviour claimed (amended) for `RemoveRoom`: every client of the
room's bucket disappears from all three views, every client of any other
room is untouched in every view, and other room buckets are unchanged. -/
def RemoveRoomSpec (h : ClientHolder) (room : String) : Prop :=
  (h.RemoveRoom room).GetRoomCount room = 0 ∧
  (∀ c ∈ h.GetByRoom room,
    c ∉ (h.RemoveRoom room).clients ∧
    (h.RemoveRoom room).GetByName c.user = none ∧
    (∀ r, c ∉ (h.RemoveRoom room).GetByRoom r)) ∧
  (∀ c ∈ h.clients, c.room ≠ room →
    c ∈ (h.RemoveRoom room).clients ∧
    (h.RemoveRoom room).GetByName c.user = some c ∧
    c ∈ (h.RemoveRoom room).GetByRoom c.room) ∧
  (∀ r, r ≠ room → (h.RemoveRoom room).GetByRoom r = h.GetByRoom r)

/-- Splicing out the position found by the removal loop deletes exactly the
first occurrence of `c` when `c` is present. -/
theorem takeDrop_removePos {l : List Client} {c : Client} (hc : c ∈ l) :
    l.take (removePos l c) ++ l.drop (removePos l c + 1) = l.erase c := by
  induction l with
  | nil => cases hc
  | cons a t ih =>
    by_cases hac : a = c
    · subst hac
      have h0 : removePos (a :: t) a = 0 := by simp [removePos]
      rw [h0]
      simp
    · have hct : c ∈ t := by
        rcases List.mem_cons.mp hc with h1 | h2
        · exact absurd h1.symm hac
        · exact h2
      have hbeq : (a == c) = false := beq_eq_false_iff_ne.mpr hac
      obtain ⟨i, hi⟩ : ∃ i, t.findIdx? (fun d => d == c) = some i :=
        ⟨_, List.findIdx?_eq_some_of_exists ⟨c, hct, by simp⟩⟩
      have h1 : removePos (a :: t) c = i + 1 := by
        simp [removePos, List.findIdx?_cons, hbeq, List.findIdx?_succ, hi]
      have h2 : removePos t c = i := by simp [removePos, hi]
      rw [h1]
      rw [List.take_succ_cons, List.drop_succ_cons, List.cons_append,
        List.erase_cons_tail (fun hab => hac (eq_of_beq hab))]
      rw [h2] at ih
      rw [ih hct]

/-- On a non-empty bucket the removal loop's position is in range, so the
splice's slice bound `pos+1 ≤ len` holds and Go does not panic. -/
theorem removePos_lt_length {l : List Client} (c : Client) (hne : l ≠ []) :
    removePos l c < l.length := by
  cases hfi : l.findIdx? (fun d => d == c) with
  | none =>
    have h0 : removePos l c = 0 := by simp [removePos, hfi]
    rw [h0]
    exact List.length_pos.mpr hne
  | some i =>
    have h0 : removePos l c = i := by simp [removePos, hfi]
    rw [h0]
    exact (List.findIdx?_eq_some_iff_findIdx_eq.mp hfi).1

/-- When `c` does not occur in the bucket the loop's position keeps its zero
value, and the splice drops the bucket's first element. -/
theorem removePos_eq_zero_of_not_mem {l : List Client} {c : Client} (hc : c ∉ l) :
    removePos l c = 0 := by
  have hfi : l.findIdx? (fun d => d == c) = none :=
    List.findIdx?_eq_none_iff.mpr (fun x hx => by
      simp only [beq_eq_false_iff_ne, ne_eq]
      exact fun habs => hc (habs ▸ hx))
  simp [removePos, hfi]

/-- Erasing an element that fails the predicate does not change `find?`. -/
theorem find?_erase_neg {α : Type} [DecidableEq α] (p : α → Bool) (c : α)
    (hp : p c = false) (l : List α) : (l.erase c).find? p = l.find? p := by
  induction l with
  | nil => rfl
  | cons a t ih =>
    by_cases hac : a = c
    · subst hac
      rw [List.erase_cons_head]
      exact (List.find?_cons_of_neg _ (by simp [hp])).symm
    · rw [List.erase_cons_tail (fun hab => hac (eq_of_beq hab))]
      cases hpa : p a
      · rw [List.find?_cons_of_neg _ (by simp [hpa]), List.find?_cons_of_neg _ (by simp [hpa])]
        exact ih
      · rw [List.find?_cons_of_pos _ hpa, List.find?_cons_of_pos _ hpa]

/-- The empty registry is well formed. -/
theorem wf_new : WF NewClientHolder := by
  refine ⟨List.nodup_nil, ?_, ?_, ?_⟩ <;> simp [NewClientHolder]

/-- `Add` of a client whose user name is fresh preserves well-formedness and
appends to the client set. -/
theorem wf_add {h : ClientHolder} {c : Client} (hwf : WF h)
    (hn : ∀ d ∈ h.clients, d.user ≠ c.user) :
    WF (h.Add c) ∧ (h.Add c).clients = h.clients ++ [c] := by
  obtain ⟨hnd, huniq, hname, hroom⟩ := hwf
  have hcmem : c ∉ h.clients := fun hmem => hn c hmem rfl
  have hcl : (h.Add c).clients = h.clients ++ [c] := by
    simp [ClientHolder.Add, hcmem]
  refine ⟨⟨?_, ?_, ?_, ?_⟩, hcl⟩
  · rw [hcl]
    simp [List.nodup_append, hnd, hcmem]
  · rw [hcl]
    intro x hx y hy hxy
    rcases List.mem_append.mp hx with hx | hx <;>
      rcases List.mem_append.mp hy with hy | hy
    · exact huniq x hx y hy hxy
    · rw [List.mem_singleton.mp hy] at hxy ⊢
      exact absurd hxy (hn x hx)
    · rw [List.mem_singleton.mp hx] at hxy ⊢
      exact absurd hxy.symm (hn y hy)
    · rw [List.mem_singleton.mp hx, List.mem_singleton.mp hy]
  · intro n
    rw [hcl, List.find?_append]
    show (if n = c.user then some c else h.clientsByName n) = _
    by_cases hn' : n = c.user
    · subst hn'
      have hfl : h.clients.find? (fun d => d.user == c.user) = none :=
        List.find?_eq_none.mpr (fun d hd => by
          simp only [beq_iff_eq]
          exact hn d hd)
      simp [hfl]
    · have hfc : List.find? (fun d => d.user == n) [c] = none := by
        rw [List.find?_singleton,
          if_neg (by simp only [beq_iff_eq]; exact fun habs => hn' habs.symm)]
      simp [hfc, hn', hname n]
  · intro r
    rw [hcl, List.filter_append]
    show (if r = c.room then h.clientsByRoom r ++ [c] else h.clientsByRoom r) = _
    by_cases hr : r = c.room
    · subst hr
      simp [hroom c.room]
    · have hcf : (c.room == r) = false :=
        beq_eq_false_iff_ne.mpr (fun habs => hr habs.symm)
      simp [hroom r, hcf, hr]

/-- `Remove` of a present client in a well-formed registry erases it from all
three views and preserves well-formedness. -/
theorem wf_remove {h : ClientHolder} {c : Client} (hwf : WF h) (hc : c ∈ h.clients) :
    WF (h.Remove c) ∧
    (h.Remove c).clients = h.clients.erase c ∧
    (∀ n, (h.Remove c).clientsByName n = if n = c.user then none else h.clientsByName n) ∧
    (∀ r, (h.Remove c).clientsByRoom r =
      if r = c.room then (h.clientsByRoom r).erase c else h.clientsByRoom r) := by
  obtain ⟨hnd, huniq, hname, hroom⟩ := hwf
  have hcl : (h.Remove c).clients = h.clients.erase c := by
    show h.clients.filter (fun d => d != c) = _
    rw [hnd.erase_eq_filter]
  have hcbucket : c ∈ h.clientsByRoom c.room := by
    rw [hroom c.room]
    exact List.mem_filter.mpr ⟨hc, by simp⟩
  have hroom' : ∀ r, (h.Remove c).clientsByRoom r =
      if r = c.room then (h.clientsByRoom r).erase c else h.clientsByRoom r := by
    intro r
    show (if r = c.room then _ else _) = _
    by_cases hr : r = c.room
    · subst hr
      rw [if_pos rfl, if_pos rfl, takeDrop_removePos hcbucket]
    · rw [if_neg hr, if_neg hr]
  refine ⟨⟨?_, ?_, ?_, ?_⟩, hcl, fun _ => rfl, hroom'⟩
  · rw [hcl]
    exact hnd.erase c
  · rw [hcl]
    intro x hx y hy hxy
    exact huniq x (List.mem_of_mem_erase hx) y (List.mem_of_mem_erase hy) hxy
  · intro n
    show (if n = c.user then none else h.clientsByName n) = _
    rw [hcl]
    by_cases hn' : n = c.user
    · subst hn'
      rw [if_pos rfl]
      refine (List.find?_eq_none.mpr ?_).symm
      intro d hd
      have hdl := List.mem_of_mem_erase hd
      have hdc : d ≠ c := ((hnd.mem_erase_iff).mp hd).1
      simp only [beq_iff_eq]
      exact fun habs => hdc (huniq d hdl c hc habs)
    · rw [if_neg hn']
      rw [find?_erase_neg (fun d => d.user == n) c
        (beq_eq_false_iff_ne.mpr (fun habs => hn' habs.symm))]
      exact hname n
  · intro r
    rw [hroom' r, hcl]
    by_cases hr : r = c.room
    · rw [if_pos hr, hroom r, List.erase_filter]
    · rw [if_neg hr, hroom r, ← List.erase_filter]
      refine (List.erase_eq_self_iff.mpr ?_).symm
      intro habs
      have h2 : (c.room == r) = true := (List.mem_filter.mp habs).2
      exact hr (eq_of_beq h2).symm

/-- In a consistent registry, removing a present client is within the splice
bound (its bucket contains it, hence is non-empty), so the checked removal
agrees with `Remove`: the regime in which the processing loop calls
`Remove` never reaches the slice-bounds panic. -/
theorem removeChecked_eq_remove_of_mem {h : ClientHolder} {c : Client}
    (hwf : WF h) (hc : c ∈ h.clients) :
    h.RemoveChecked c = some (h.Remove c) := by
  have hcbucket : c ∈ h.clientsByRoom c.room := by
    rw [hwf.2.2.2 c.room]
    exact List.mem_filter.mpr ⟨hc, by simp⟩
  have hne : h.clientsByRoom c.room ≠ [] := by
    intro habs
    rw [habs] at hcbucket
    cases hcbucket
  rw [ClientHolder.RemoveChecked,
    if_pos (Nat.succ_le_of_lt (removePos_lt_length c hne))]

/-- A legal run from a well-formed state stays well formed and its final count
balances the adds and removes. -/
theorem wf_runOps {h : ClientHolder} {ops : List RegOp} (hwf : WF h)
    (hleg : legalRun h ops = true) :
    WF (runOps h ops) ∧
    (runOps h ops).Count + numRemoves ops = h.Count + numAdds ops := by
  induction ops generalizing h with
  | nil => exact ⟨hwf, rfl⟩
  | cons op ops ih =>
    rw [legalRun, Bool.and_eq_true] at hleg
    obtain ⟨hop, hrest⟩ := hleg
    cases op with
    | add c =>
      have hn : ∀ d ∈ h.clients, d.user ≠ c.user := by
        intro d hd
        have hd' := (List.all_eq_true.mp hop) d hd
        simpa using hd'
      obtain ⟨hwf', hcl⟩ := wf_add hwf hn
      obtain ⟨h1, h2⟩ := ih hwf' hrest
      refine ⟨h1, ?_⟩
      have hcount : (h.Add c).Count = h.Count + 1 := by
        simp [ClientHolder.Count, hcl]
      simp only [runOps, applyOp, numAdds, numRemoves] at *
      omega
    | remove c =>
      have hc : c ∈ h.clients := by
        rw [legalOp] at hop
        exact List.elem_iff.mp hop
      obtain ⟨hwf', hcl, -, -⟩ := wf_remove hwf hc
      obtain ⟨h1, h2⟩ := ih hwf' hrest
      refine ⟨h1, ?_⟩
      have hcount : (h.Remove c).Count + 1 = h.Count := by
        have hlen : (h.clients.erase c).length = h.clients.length - 1 :=
          List.length_erase_of_mem hc
        have hpos : 0 < h.clients.length := List.length_pos_of_mem hc
        simp only [ClientHolder.Count, hcl, hlen]
        omega
      simp only [runOps, applyOp, numAdds, numRemoves] at *
      omega

/-- In a well-formed registry, `GetByName` answers exactly "the present client
with that user name". -/
theorem wf_getByName {h : ClientHolder} (hwf : WF h) (n : String) (c : Client) :
    h.GetByName n = some c ↔ (c ∈ h.clients ∧ c.user = n) := by
  obtain ⟨hnd, huniq, hname, hroom⟩ := hwf
  rw [ClientHolder.GetByName, hname n]
  constructor
  · intro hfind
    exact ⟨List.mem_of_find?_eq_some hfind, by simpa using List.find?_some hfind⟩
  · rintro ⟨hmem, huser⟩
    cases hfind : h.clients.find? (fun d => d.user == n) with
    | none =>
      have habs := List.find?_eq_none.mp hfind c hmem
      simp [huser] at habs
    | some d =>
      have hd1 : d.user = n := by simpa using List.find?_some hfind
      have hd2 : d ∈ h.clients := List.mem_of_find?_eq_some hfind
      rw [huniq d hd2 c hmem (by rw [hd1, huser])]

/-- In a well-formed registry, a present client is in exactly its own room
bucket. -/
theorem wf_mem_byRoom {h : ClientHolder} (hwf : WF h) (c : Client)
    (hc : c ∈ h.clients) (r : String) : c ∈ h.GetByRoom r ↔ r = c.room := by
  obtain ⟨-, -, -, hroom⟩ := hwf
  rw [ClientHolder.GetByRoom, hroom r, List.mem_filter]
  constructor
  · rintro ⟨-, h2⟩
    exact (eq_of_beq h2).symm
  · intro hr
    exact ⟨hc, by simp [hr]⟩

/-- The sample three-client registry is well formed. -/
theorem wf_sample : WF sampleHolder := by
  have h1 := wf_add (c := alice) wf_new (by intro d hd; cases hd)
  have h2 := wf_add (c := bob) h1.1 (by
    rw [h1.2]
    intro d hd
    simp only [NewClientHolder, List.nil_append] at hd
    rcases List.mem_singleton.mp hd with rfl
    decide)
  have h3 := wf_add (c := carol) h2.1 (by
    rw [h2.2, h1.2]
    intro d hd
    simp only [NewClientHolder, List.nil_append] at hd
    rcases List.mem_append.mp hd with hd | hd
    · rcases List.mem_singleton.mp hd with rfl
      decide
    · rcases List.mem_singleton.mp hd with rfl
      decide)
  exact h3.1

/-- C1 counterexample: the claim "remove(c) for an absent client leaves the
registry unchanged and evicts no other client" is false.  With one present
client `⟨u, r⟩` and the absent client `⟨v, r⟩` sharing only the room, the
removal loop's `pos` stays at its zero value and the splice evicts the first
client of room `r` from the room view. -/
theorem C1_cex_remove_absent_evicts :
    ((NewClientHolder.Add ⟨"u", "r", 0⟩).Remove ⟨"v", "r", 1⟩).GetByRoom "r" ≠
      (NewClientHolder.Add ⟨"u", "r", 0⟩).GetByRoom "r" := by
  decide

/-- C1 (amended): removing a client `c` that is not currently present never
leaves the registry unchanged.  When `c`'s room-bucket entry is unset or
empty the removal faults (Go's `append(room[:pos], room[pos+1:]...)` panics
with a slice-bounds error, modelled by `RemoveChecked` returning `none`).
When the bucket is non-empty the removal completes: the full client set is
unchanged, the name key `c.user` is deleted (evicting any same-named client
from the name view) while other name keys are untouched, and — when `c` is
not in the bucket — the bucket's first client is evicted from the room view,
other buckets being untouched. -/
theorem C1_remove_absent_behaviour (h : ClientHolder) (c : Client)
    (hmem : c ∉ h.clients) :
    (h.clientsByRoom c.room = [] → h.RemoveChecked c = none) ∧
    (∀ d rest, h.clientsByRoom c.room = d :: rest →
      h.RemoveChecked c = some (h.Remove c) ∧
      (h.Remove c).clients = h.clients ∧
      (c ∉ d :: rest → (h.Remove c).clientsByRoom c.room = rest) ∧
      (h.Remove c).clientsByName c.user = none ∧
      (∀ n, n ≠ c.user → (h.Remove c).clientsByName n = h.clientsByName n) ∧
      (∀ r, r ≠ c.room → (h.Remove c).clientsByRoom r = h.clientsByRoom r)) := by
  constructor
  · intro hb
    rw [ClientHolder.RemoveChecked, hb]
    rw [if_neg (by simp [removePos])]
  · intro d rest hb
    have hne : h.clientsByRoom c.room ≠ [] := by
      rw [hb]
      exact List.cons_ne_nil d rest
    refine ⟨?_, ?_, ?_, ?_, ?_, ?_⟩
    · rw [ClientHolder.RemoveChecked,
        if_pos (Nat.succ_le_of_lt (removePos_lt_length c hne))]
    · show h.clients.filter (fun e => e != c) = h.clients
      rw [List.filter_eq_self]
      intro e he
      simp only [bne_iff_ne, ne_eq]
      exact fun habs => hmem (habs ▸ he)
    · intro hcb
      show (if c.room = c.room then _ else _) = rest
      rw [if_pos rfl, hb] at *
      rw [removePos_eq_zero_of_not_mem hcb]
      simp
    · show (if c.user = c.user then none else _) = none
      rw [if_pos rfl]
    · intro n hn
      show (if n = c.user then none else h.clientsByName n) = h.clientsByName n
      rw [if_neg hn]
    · intro r hr
      show (if r = c.room then _ else _) = h.clientsByRoom r
      rw [if_neg hr]

/-- C1 witness: both branches of the amended theorem at a concrete registry
holding one client `⟨u, r⟩`: removing the absent `⟨v, s⟩` (empty bucket `s`)
faults, and removing the absent `⟨v, r⟩` (bucket `r` non-empty) completes but
empties bucket `r`. -/
theorem C1_remove_absent_behaviour_witness :
    ((⟨"v", "s", 1⟩ : Client) ∉ (NewClientHolder.Add ⟨"u", "r", 0⟩).clients ∧
      (NewClientHolder.Add ⟨"u", "r", 0⟩).clientsByRoom "s" = [] ∧
      (NewClientHolder.Add ⟨"u", "r", 0⟩).RemoveChecked ⟨"v", "s", 1⟩ = none) ∧
    ((⟨"v", "r", 1⟩ : Client) ∉ (NewClientHolder.Add ⟨"u", "r", 0⟩).clients ∧
      (NewClientHolder.Add ⟨"u", "r", 0⟩).clientsByRoom "r" = [⟨"u", "r", 0⟩] ∧
      (NewClientHolder.Add ⟨"u", "r", 0⟩).RemoveChecked ⟨"v", "r", 1⟩ =
        some ((NewClientHolder.Add ⟨"u", "r", 0⟩).Remove ⟨"v", "r", 1⟩) ∧
      ((NewClientHolder.Add ⟨"u", "r", 0⟩).Remove ⟨"v", "r", 1⟩).clients =
        (NewClientHolder.Add ⟨"u", "r", 0⟩).clients ∧
      ((NewClientHolder.Add ⟨"u", "r", 0⟩).Remove ⟨"v", "r", 1⟩).clientsByRoom "r" = []) :=
  ⟨⟨by decide, by decide,
    (C1_remove_absent_behaviour (NewClientHolder.Add ⟨"u", "r", 0⟩) ⟨"v", "s", 1⟩
      (by decide)).1 (by decide)⟩,
   ⟨by decide, by decide,
    ((C1_remove_absent_behaviour (NewClientHolder.Add ⟨"u", "r", 0⟩) ⟨"v", "r", 1⟩
      (by decide)).2 ⟨"u", "r", 0⟩ [] (by decide)).1,
    ((C1_remove_absent_behaviour (NewClientHolder.Add ⟨"u", "r", 0⟩) ⟨"v", "r", 1⟩
      (by decide)).2 ⟨"u", "r", 0⟩ [] (by decide)).2.1,
    ((C1_remove_absent_behaviour (NewClientHolder.Add ⟨"u", "r", 0⟩) ⟨"v", "r", 1⟩
      (by decide)).2 ⟨"u", "r", 0⟩ [] (by decide)).2.2.1 (by decide)⟩⟩

/-- C3: for every sequence of legal adds (user name unique among present
clients) and removes (of present clients) run from the empty registry,
`count()` balances adds against removes, `byName` returns exactly the present
client of that name, `byRoom` lists exactly the present clients of that room
in insertion order, and every present client appears under exactly one name
key and in exactly one room bucket. -/
theorem C3_registry_invariants (ops : List RegOp)
    (hleg : legalRun NewClientHolder ops = true) :
    (runOps NewClientHolder ops).Count + numRemoves ops = numAdds ops ∧
    RegistryConsistent (runOps NewClientHolder ops) := by
  obtain ⟨hwf, hcount⟩ := wf_runOps wf_new hleg
  have hc0 : NewClientHolder.Count = 0 := rfl
  refine ⟨by rw [hc0] at hcount; simpa using hcount, ?_, ?_, ?_⟩
  · intro n c
    exact wf_getByName hwf n c
  · intro r
    exact (hwf.2.2.2 r)
  · intro c hc
    refine ⟨?_, fun r => wf_mem_byRoom hwf c hc r⟩
    intro n
    rw [wf_getByName hwf n c]
    constructor
    · rintro ⟨-, h2⟩
      exact h2.symm
    · intro hn
      exact ⟨hc, hn.symm⟩

/-- C3 witness: the invariant theorem applied to the concrete legal run
"add alice, add bob, remove alice". -/
theorem C3_registry_invariants_witness :
    legalRun NewClientHolder ops0 = true ∧
    ((runOps NewClientHolder ops0).Count + numRemoves ops0 = numAdds ops0 ∧
      RegistryConsistent (runOps NewClientHolder ops0)) :=
  ⟨by decide, C3_registry_invariants ops0 (by decide)⟩

/-- C10: adding two distinct clients that share a user name counts both,
`byName` answers the most recently added one, and removing that one deletes
the name key entirely while the earlier client stays in the full set and in
its room bucket. -/
theorem C10_duplicate_names (c1 c2 : Client) (hne : c1 ≠ c2)
    (huser : c1.user = c2.user) :
    ((NewClientHolder.Add c1).Add c2).Count = 2 ∧
    ((NewClientHolder.Add c1).Add c2).GetByName c1.user = some c2 ∧
    (((NewClientHolder.Add c1).Add c2).Remove c2).GetByName c1.user = none ∧
    c1 ∈ (((NewClientHolder.Add c1).Add c2).Remove c2).clients ∧
    c1 ∈ (((NewClientHolder.Add c1).Add c2).Remove c2).GetByRoom c1.room := by
  have h1 : (NewClientHolder.Add c1).clients = [c1] := by
    simp [NewClientHolder, ClientHolder.Add]
  have h2 : ((NewClientHolder.Add c1).Add c2).clients = [c1, c2] := by
    rw [ClientHolder.Add, h1]
    simp [List.mem_singleton, hne.symm]
  refine ⟨?_, ?_, ?_, ?_, ?_⟩
  · simp [ClientHolder.Count, h2]
  · rw [huser]
    show (if c2.user = c2.user then some c2 else _) = some c2
    rw [if_pos rfl]
  · show (if c1.user = c2.user then none else _) = none
    rw [if_pos huser]
  · show c1 ∈ ((NewClientHolder.Add c1).Add c2).clients.filter (fun d => d != c2)
    rw [h2]
    simp [hne]
  · show c1 ∈ (if c1.room = c2.room then _ else _)
    by_cases hr : c1.room = c2.room
    · rw [if_pos hr]
      have hbucket : ((NewClientHolder.Add c1).Add c2).clientsByRoom c2.room = [c1, c2] := by
        show (if c2.room = c2.room then (NewClientHolder.Add c1).clientsByRoom c2.room ++ [c2]
          else _) = _
        rw [if_pos rfl]
        show (if c2.room = c1.room then (NewClientHolder.clientsByRoom c2.room) ++ [c1]
          else NewClientHolder.clientsByRoom c2.room) ++ [c2] = _
        rw [if_pos hr.symm]
        rfl
      rw [hbucket]
      have hpos : removePos [c1, c2] c2 = 1 := by
        simp [removePos, List.findIdx?_cons, beq_eq_false_iff_ne.mpr hne]
      rw [hpos]
      simp
    · rw [if_neg (fun habs => hr (by rw [habs]))]
      show c1 ∈ (if c1.room = c2.room then _ else (NewClientHolder.Add c1).clientsByRoom c1.room)
      rw [if_neg hr]
      show c1 ∈ (if c1.room = c1.room then NewClientHolder.clientsByRoom c1.room ++ [c1]
        else NewClientHolder.clientsByRoom c1.room)
      rw [if_pos rfl]
      simp [NewClientHolder]

/-- C10 witness: two concrete clients with the same user name and the same
room. -/
theorem C10_duplicate_names_witness :
    ((⟨"u", "r", 0⟩ : Client) ≠ (⟨"u", "r", 1⟩ : Client) ∧
      (⟨"u", "r", 0⟩ : Client).user = (⟨"u", "r", 1⟩ : Client).user) ∧
    ((NewClientHolder.Add ⟨"u", "r", 0⟩).Add ⟨"u", "r", 1⟩).Count = 2 ∧
    ((NewClientHolder.Add ⟨"u", "r", 0⟩).Add ⟨"u", "r", 1⟩).GetByName
        (⟨"u", "r", 0⟩ : Client).user = some ⟨"u", "r", 1⟩ ∧
    (((NewClientHolder.Add ⟨"u", "r", 0⟩).Add ⟨"u", "r", 1⟩).Remove
        ⟨"u", "r", 1⟩).GetByName (⟨"u", "r", 0⟩ : Client).user = none ∧
    (⟨"u", "r", 0⟩ : Client) ∈ (((NewClientHolder.Add ⟨"u", "r", 0⟩).Add
        ⟨"u", "r", 1⟩).Remove ⟨"u", "r", 1⟩).clients ∧
    (⟨"u", "r", 0⟩ : Client) ∈ (((NewClientHolder.Add ⟨"u", "r", 0⟩).Add
        ⟨"u", "r", 1⟩).Remove ⟨"u", "r", 1⟩).GetByRoom (⟨"u", "r", 0⟩ : Client).room :=
  ⟨⟨by decide, rfl⟩, C10_duplicate_names ⟨"u", "r", 0⟩ ⟨"u", "r", 1⟩ (by decide) rfl⟩

/-- C2 counterexample: the claim "issuing send-to-user for an absent name in
the synchronous Ops context never faults and leaves the state unchanged" is
false: `Ops.SendTo` performs an unguarded `c.conn.Write` on the nil result of
the lookup, modelled by the `none` outcome. -/
theorem C2_cex_ops_sendTo_faults :
    Ops.SendTo emptyServer "alice" "hi" = none ∧
    Ops.SendTo emptyServer "alice" "hi" ≠ some emptyServer := by
  refine ⟨rfl, ?_⟩
  intro habs
  rw [show Ops.SendTo emptyServer "alice" "hi" = none from rfl] at habs
  exact Option.noConfusion habs

/-- C2 (amended): the asynchronous server-level send path silently ignores an
absent name and writes to the named client's stream when present; the
synchronous Ops handle writes when the name is present but faults (nil
dereference, modelled by `none`) when it is absent. -/
theorem C2_sendToUser (s : ServerState) (user message : String) :
    (s.holder.GetByName user = none →
      Server.processResponse s user message = s ∧
      Ops.SendTo s user message = none) ∧
    (∀ c, s.holder.GetByName user = some c →
      Server.processResponse s user message =
        { s with writes := s.writes ++ [(c, message)] } ∧
      Ops.SendTo s user message =
        some { s with writes := s.writes ++ [(c, message)] }) := by
  constructor
  · intro hnone
    rw [Server.processResponse, Ops.SendTo, hnone]
    exact ⟨rfl, rfl⟩
  · intro c hsome
    rw [Server.processResponse, Ops.SendTo, hsome]
    exact ⟨rfl, rfl⟩

/-- C2 witness: both branches of the send-to-user theorem at concrete
states: an absent name on the empty server, and a present name on the
three-client sample server. -/
theorem C2_sendToUser_witness :
    (emptyServer.holder.GetByName "u" = none ∧
      Server.processResponse emptyServer "u" "m" = emptyServer ∧
      Ops.SendTo emptyServer "u" "m" = none) ∧
    (sampleServer.holder.GetByName "alice" = some alice ∧
      Server.processResponse sampleServer "alice" "m" =
        { sampleServer with writes := sampleServer.writes ++ [(alice, "m")] } ∧
      Ops.SendTo sampleServer "alice" "m" =
        some { sampleServer with writes := sampleServer.writes ++ [(alice, "m")] }) :=
  ⟨⟨rfl, (C2_sendToUser emptyServer "u" "m").1 rfl⟩,
    ⟨by decide, (C2_sendToUser sampleServer "alice" "m").2 alice (by decide)⟩⟩

/-- C4 counterexample: the claim fails in the synchronous Ops context on both
sides: for an absent name `Ops.Disconnect` faults (unguarded `c.conn.Close`
on nil, modelled by `none`) instead of being silently ignored, and for a
present name it never invokes the disconnect callback. -/
theorem C4_cex_ops_disconnect :
    Ops.Disconnect emptyServer "u" = none ∧
    (Ops.Disconnect sampleServer "alice").map ServerState.disconnectCalls = some [] := by
  exact ⟨rfl, by decide⟩

/-- C4 (amended): the asynchronous disconnect path matches the claim (absent
name silently ignored; present name: stream closed, client removed from all
views, disconnect callback invoked exactly once); the synchronous
`Ops.Disconnect` closes and removes a present client but invokes no callback,
and faults on an absent name. -/
theorem C4_disconnectUser (s : ServerState) (user : String) (hwf : WF s.holder) :
    (s.holder.GetByName user = none →
      Server.processDisconnect s user = s ∧ Ops.Disconnect s user = none) ∧
    (∀ c, s.holder.GetByName user = some c →
      Server.processDisconnect s user =
        { s with
          holder := s.holder.Remove c
          closes := s.closes ++ [c]
          disconnectCalls := s.disconnectCalls ++ [(c.user, c.room)] } ∧
      Ops.Disconnect s user =
        some { s with holder := s.holder.Remove c, closes := s.closes ++ [c] } ∧
      c ∉ (s.holder.Remove c).clients ∧
      (s.holder.Remove c).GetByName c.user = none ∧
      (∀ r, c ∉ (s.holder.Remove c).GetByRoom r) ∧
      WF (s.holder.Remove c)) := by
  constructor
  · intro hnone
    rw [Server.processDisconnect, Ops.Disconnect, hnone]
    exact ⟨rfl, rfl⟩
  · intro c hsome
    have hc : c ∈ s.holder.clients := ((wf_getByName hwf user c).mp hsome).1
    obtain ⟨hwf', hcl, hname', hroom'⟩ := wf_remove hwf hc
    obtain ⟨hnd, huniq, hname, hroom⟩ := hwf
    refine ⟨?_, ?_, ?_, ?_, ?_, hwf'⟩
    · rw [Server.processDisconnect, hsome]
    · rw [Ops.Disconnect, hsome]
    · rw [hcl]
      exact hnd.not_mem_erase
    · rw [ClientHolder.GetByName, hname' c.user, if_pos rfl]
    · intro r
      rw [ClientHolder.GetByRoom, hroom' r]
      by_cases hr : r = c.room
      · rw [if_pos hr]
        have hbnd : (s.holder.clientsByRoom r).Nodup := by
          rw [hroom r]
          exact hnd.filter _
        exact hbnd.not_mem_erase
      · rw [if_neg hr, hroom r]
        intro habs
        exact hr (eq_of_beq (List.mem_filter.mp habs).2).symm

/-- C4 witness: both branches of the disconnect-user theorem at concrete
states: an absent name on the empty server, and the present client `alice`
on the three-client sample server. -/
theorem C4_disconnectUser_witness :
    (WF emptyServer.holder ∧ emptyServer.holder.GetByName "u" = none ∧
      Server.processDisconnect emptyServer "u" = emptyServer ∧
      Ops.Disconnect emptyServer "u" = none) ∧
    (WF sampleServer.holder ∧ sampleServer.holder.GetByName "alice" = some alice ∧
      Server.processDisconnect sampleServer "alice" =
        { sampleServer with
          holder := sampleServer.holder.Remove alice
          closes := sampleServer.closes ++ [alice]
          disconnectCalls := sampleServer.disconnectCalls ++ [(alice.user, alice.room)] } ∧
      Ops.Disconnect sampleServer "alice" =
        some { sampleServer with
          holder := sampleServer.holder.Remove alice
          closes := sampleServer.closes ++ [alice] } ∧
      alice ∉ (sampleServer.holder.Remove alice).clients ∧
      (sampleServer.holder.Remove alice).GetByName alice.user = none ∧
      (∀ r, alice ∉ (sampleServer.holder.Remove alice).GetByRoom r) ∧
      WF (sampleServer.holder.Remove alice)) :=
  ⟨⟨wf_new, rfl, (C4_disconnectUser emptyServer "u" wf_new).1 rfl⟩,
    ⟨wf_sample, by decide,
      (C4_disconnectUser sampleServer "alice" wf_sample).2 alice (by decide)⟩⟩

/-- Folding `shutdownStep` over a snapshot equal to the current client list
empties the registry and records one close and one disconnect callback per
client, in order. -/
theorem shutdown_foldl (l : List Client) (s : ServerState)
    (hwf : WF s.holder) (hl : s.holder.clients = l) :
    WF (l.foldl shutdownStep s).holder ∧
    (l.foldl shutdownStep s).holder.clients = [] ∧
    (l.foldl shutdownStep s).writes = s.writes ∧
    (l.foldl shutdownStep s).closes = s.closes ++ l ∧
    (l.foldl shutdownStep s).disconnectCalls =
      s.disconnectCalls ++ l.map (fun c => (c.user, c.room)) := by
  induction l generalizing s with
  | nil => exact ⟨hwf, hl, rfl, by simp, by simp⟩
  | cons c rest ih =>
    have hc : c ∈ s.holder.clients := by
      rw [hl]
      exact List.mem_cons_self c rest
    obtain ⟨hwf', hcl, -, -⟩ := wf_remove hwf hc
    have hclients : (shutdownStep s c).holder.clients = rest := by
      show (s.holder.Remove c).clients = rest
      rw [hcl, hl]
      exact List.erase_cons_head c rest
    obtain ⟨g1, g2, g3, g4, g5⟩ := ih (shutdownStep s c) hwf' hclients
    refine ⟨g1, g2, g3, ?_, ?_⟩
    · rw [List.foldl_cons] at *
      rw [g4]
      show (s.closes ++ [c]) ++ rest = _
      rw [List.append_assoc, List.singleton_append]
    · rw [List.foldl_cons] at *
      rw [g5]
      show (s.disconnectCalls ++ [(c.user, c.room)]) ++ rest.map _ = _
      rw [List.append_assoc, List.singleton_append, List.map_cons]

/-- C5: processing the shutdown event closes the stream of every registered
client exactly once, removes each from all registry views, invokes the
disconnect callback exactly once per client (in registry order), and the
event loop then terminates with the registry empty. -/
theorem C5_shutdown (s : ServerState) (hwf : WF s.holder) : ShutdownSpec s := by
  obtain ⟨g1, g2, g3, g4, g5⟩ :=
    shutdown_foldl s.holder.GetAll s hwf rfl
  have hnd : s.holder.GetAll.Nodup := hwf.1
  refine ⟨?_, ?_, ?_, g3, g4, g5, ?_⟩
  · show (Server.processShutdown s).holder.clients.length = 0
    rw [Server.processShutdown, g2]
    rfl
  · intro n
    rw [Server.processShutdown, ClientHolder.GetByName, g1.2.2.1 n, g2]
    rfl
  · intro r
    rw [Server.processShutdown, ClientHolder.GetByRoom, g1.2.2.2 r, g2]
    rfl
  · intro c hc
    rw [Server.processShutdown, g4, List.count_append]
    rw [List.count_eq_one_of_mem hnd hc]

/-- C5 witness: the shutdown theorem applied to the concrete three-client
sample server. -/
theorem C5_shutdown_witness : WF sampleServer.holder ∧ ShutdownSpec sampleServer :=
  ⟨wf_sample, C5_shutdown sampleServer wf_sample⟩

/-- Running `Ops.Disconnect` over the user names of a snapshot equal to the
current bucket of `room` never faults, empties the bucket, erases exactly the
room's clients, and leaves every other room's bucket and every other user's
name entry unchanged. -/
theorem disconnectList_foldl (l : List Client) (s : ServerState) (room : String)
    (hwf : WF s.holder) (hl : s.holder.clientsByRoom room = l) :
    ∃ s1, Ops.DisconnectList (l.map Client.user) s = some s1 ∧
      WF s1.holder ∧
      s1.holder.clientsByRoom room = [] ∧
      (∀ r, r ≠ room → s1.holder.clientsByRoom r = s.holder.clientsByRoom r) ∧
      (∀ n, (∀ c ∈ l, c.user ≠ n) → s1.holder.clientsByName n = s.holder.clientsByName n) ∧
      s1.holder.clients = s.holder.clients.filter (fun c => !(c.room == room)) ∧
      s1.writes = s.writes ∧
      s1.closes = s.closes ++ l ∧
      s1.disconnectCalls = s.disconnectCalls := by
  induction l generalizing s with
  | nil =>
    refine ⟨s, rfl, hwf, hl, fun r _ => rfl, fun n _ => rfl, ?_, rfl, by simp, rfl⟩
    have hempty : ∀ c ∈ s.holder.clients, (c.room == room) = false := by
      intro c hc
      by_contra habs
      rw [Bool.not_eq_false] at habs
      have hcB : c ∈ s.holder.clientsByRoom room := by
        rw [hwf.2.2.2 room]
        exact List.mem_filter.mpr ⟨hc, habs⟩
      rw [hl] at hcB
      cases hcB
    refine (List.filter_eq_self.mpr ?_).symm
    intro c hc
    rw [hempty c hc]
    rfl
  | cons c rest ih =>
    have hcB : c ∈ s.holder.clientsByRoom room := by
      rw [hl]
      exact List.mem_cons_self c rest
    have hcmem : c ∈ s.holder.clients := by
      rw [hwf.2.2.2 room] at hcB
      exact (List.mem_filter.mp hcB).1
    have hcroom : c.room = room := by
      rw [hwf.2.2.2 room] at hcB
      exact eq_of_beq (List.mem_filter.mp hcB).2
    have hfound : s.holder.GetByName c.user = some c :=
      (wf_getByName hwf c.user c).mpr ⟨hcmem, rfl⟩
    obtain ⟨hwf', hcl, hname', hroom'⟩ := wf_remove hwf hcmem
    have hstep : Ops.Disconnect s c.user =
        some { s with holder := s.holder.Remove c, closes := s.closes ++ [c] } := by
      rw [Ops.Disconnect, hfound]
    have hl' : ({ s with holder := s.holder.Remove c, closes := s.closes ++ [c] } : ServerState).holder.clientsByRoom room = rest := by
      show (s.holder.Remove c).clientsByRoom room = rest
      rw [hroom' room, hcroom, if_pos rfl, hl]
      exact List.erase_cons_head c rest
    obtain ⟨s1, g0, g1, g2, g3, g4, g5, g6, g7, g8⟩ :=
      ih { s with holder := s.holder.Remove c, closes := s.closes ++ [c] } hwf' hl'
    refine ⟨s1, ?_, g1, g2, ?_, ?_, ?_, g6, ?_, g8⟩
    · rw [List.map_cons, Ops.DisconnectList, hstep]
      exact g0
    · intro r hr
      rw [g3 r hr]
      show (s.holder.Remove c).clientsByRoom r = _
      rw [hroom' r, if_neg (fun habs => hr (habs.trans hcroom))]
    · intro n hn
      have hn' : ∀ d ∈ rest, d.user ≠ n := fun d hd => hn d (List.mem_cons_of_mem c hd)
      rw [g4 n hn']
      show (s.holder.Remove c).clientsByName n = _
      rw [hname' n, if_neg (fun habs => hn c (List.mem_cons_self c rest) habs.symm)]
    · rw [g5]
      show (s.holder.Remove c).clients.filter _ = _
      rw [hcl, ← List.erase_filter]
      refine List.erase_eq_self_iff.mpr ?_
      intro habs
      have h2 := (List.mem_filter.mp habs).2
      rw [hcroom] at h2
      simp at h2
    · rw [g7]
      show (s.closes ++ [c]) ++ rest = _
      rw [List.append_assoc, List.singleton_append]

/-- C8: in a well-formed registry, `Ops.DisconnectRoom` equals the sequence
of `Ops.Disconnect` calls over the snapshot of the room's user names taken
before the first disconnect; it never faults, afterwards the room's count is
zero, and the clients of every other room are unaffected in every view. -/
theorem C8_disconnectRoom (s : ServerState) (room : String) (hwf : WF s.holder) :
    DisconnectRoomSpec s room := by
  obtain ⟨s1, g0, g1, g2, g3, g4, g5, g6, g7, g8⟩ :=
    disconnectList_foldl (s.holder.clientsByRoom room) s room hwf rfl
  refine ⟨s1, g0, g0, ?_, g3, ?_, g6, g7, g1⟩
  · show (s1.holder.clientsByRoom room).length = 0
    rw [g2]
    rfl
  · intro c hc hcr
    constructor
    · rw [g5]
      refine List.mem_filter.mpr ⟨hc, ?_⟩
      rw [Bool.not_eq_eq_eq_not]
      simp only [Bool.not_true, beq_eq_false_iff_ne, ne_eq]
      exact hcr
    · have hn : ∀ d ∈ s.holder.clientsByRoom room, d.user ≠ c.user := by
        intro d hd habs
        have hdmem : d ∈ s.holder.clients := by
          rw [hwf.2.2.2 room] at hd
          exact (List.mem_filter.mp hd).1
        have hdroom : d.room = room := by
          rw [hwf.2.2.2 room] at hd
          exact eq_of_beq (List.mem_filter.mp hd).2
        have : d = c := hwf.2.1 d hdmem c hc habs
        rw [this] at hdroom
        exact hcr hdroom
      rw [ClientHolder.GetByName, g4 c.user hn]
      exact (wf_getByName hwf c.user c).mpr ⟨hc, rfl⟩

/-- C8 witness: the disconnect-room theorem applied to the sample server and
room `room1` (holding alice and bob, with carol in `room2`). -/
theorem C8_disconnectRoom_witness :
    WF sampleServer.holder ∧ DisconnectRoomSpec sampleServer "room1" :=
  ⟨wf_sample, C8_disconnectRoom sampleServer "room1" wf_sample⟩

/-- Net effect of the removal loop of `RemoveRoom`: the set keeps exactly the
clients not in the iterated list, a name key is cleared exactly when some
iterated client bears it, and room buckets are untouched. -/
theorem removeRoom_foldl (l : List Client) (h : ClientHolder) :
    (l.foldl removeRoomStep h).clients =
      h.clients.filter (fun d => l.all (fun e => d != e)) ∧
    (∀ n, (l.foldl removeRoomStep h).clientsByName n =
      if ∃ c ∈ l, c.user = n then none else h.clientsByName n) ∧
    (∀ r, (l.foldl removeRoomStep h).clientsByRoom r = h.clientsByRoom r) := by
  induction l generalizing h with
  | nil =>
    refine ⟨?_, fun n => ?_, fun r => rfl⟩
    · refine (List.filter_eq_self.mpr (fun a _ => rfl)).symm
    · rw [if_neg (by simp)]
      rfl
  | cons c rest ih =>
    obtain ⟨g1, g2, g3⟩ := ih (removeRoomStep h c)
    rw [List.foldl_cons]
    refine ⟨?_, fun n => ?_, fun r => g3 r⟩
    · rw [g1]
      show (h.clients.filter (fun d => d != c)).filter _ = _
      rw [List.filter_filter]
      refine List.filter_congr (fun a _ => ?_)
      rw [List.all_cons, Bool.and_comm]
    · rw [g2 n]
      show (if ∃ d ∈ rest, d.user = n then none
          else if n = c.user then none else h.clientsByName n) = _
      by_cases h1 : ∃ d ∈ rest, d.user = n
      · obtain ⟨d, hd, hdn⟩ := h1
        rw [if_pos ⟨d, hd, hdn⟩, if_pos ⟨d, List.mem_cons_of_mem c hd, hdn⟩]
      · rw [if_neg h1]
        by_cases h2 : n = c.user
        · rw [if_pos h2, if_pos ⟨c, List.mem_cons_self c rest, h2.symm⟩]
        · have hno : ¬ ∃ d ∈ c :: rest, d.user = n := by
            rintro ⟨d, hd, hdn⟩
            rcases List.mem_cons.mp hd with rfl | hd'
            · exact h2 hdn.symm
            · exact h1 ⟨d, hd', hdn⟩
          rw [if_neg h2, if_neg hno]

/-- C9 counterexample: the claim "removeRoom(r) leaves every client whose
room is not r unchanged in every view" fails on a reachable registry holding
two clients with the same user name in different rooms: removing room `r1`
also deletes the name key under which the `r2` client is registered. -/
theorem C9_cex_removeRoom_name_eviction :
    dupHolder.GetByName "u" = some ⟨"u", "r2", 1⟩ ∧
    (⟨"u", "r2", 1⟩ : Client) ∈ (dupHolder.RemoveRoom "r1").clients ∧
    (dupHolder.RemoveRoom "r1").GetByName "u" = none := by
  exact ⟨by decide, by decide, by decide⟩

/-- C9 (amended): in a well-formed registry (user names unique among present
clients), `removeRoom(room)` removes every client of the room's bucket from
all three views and leaves every client of any other room, and every other
room bucket, unchanged. -/
theorem C9_removeRoom (h : ClientHolder) (room : String) (hwf : WF h) :
    RemoveRoomSpec h room := by
  obtain ⟨hnd, huniq, hname, hroom⟩ := hwf
  obtain ⟨g1, g2, g3⟩ := removeRoom_foldl (h.clientsByRoom room) h
  have hbucketMem : ∀ c ∈ h.clientsByRoom room, c ∈ h.clients ∧ c.room = room := by
    intro c hc
    rw [hroom room] at hc
    exact ⟨(List.mem_filter.mp hc).1, eq_of_beq (List.mem_filter.mp hc).2⟩
  refine ⟨?_, ?_, ?_, ?_⟩
  · show (if room = room then [] else _).length = 0
    rw [if_pos rfl]
    rfl
  · intro c hc
    obtain ⟨hcmem, hcroom⟩ := hbucketMem c hc
    refine ⟨?_, ?_, ?_⟩
    · show c ∉ ((h.clientsByRoom room).foldl removeRoomStep h).clients
      rw [g1]
      intro habs
      have hall := (List.mem_filter.mp habs).2
      have hcc := List.all_eq_true.mp hall c hc
      simp at hcc
    · show ((h.clientsByRoom room).foldl removeRoomStep h).clientsByName c.user = none
      rw [g2 c.user, if_pos ⟨c, hc, rfl⟩]
    · intro r
      show c ∉ (if r = room then [] else _)
      by_cases hr : r = room
      · rw [if_pos hr]
        exact List.not_mem_nil c
      · rw [if_neg hr, g3 r, hroom r]
        intro habs
        have h2 := eq_of_beq (List.mem_filter.mp habs).2
        rw [hcroom] at h2
        exact hr h2.symm
  · intro c hcmem hcr
    have hnotbucket : ∀ e ∈ h.clientsByRoom room, e ≠ c := by
      intro e he habs
      obtain ⟨-, heroom⟩ := hbucketMem e he
      rw [habs] at heroom
      exact hcr heroom
    refine ⟨?_, ?_, ?_⟩
    · show c ∈ ((h.clientsByRoom room).foldl removeRoomStep h).clients
      rw [g1]
      refine List.mem_filter.mpr ⟨hcmem, ?_⟩
      rw [List.all_eq_true]
      intro e he
      simp only [bne_iff_ne, ne_eq]
      exact fun habs => hnotbucket e he habs.symm
    · show ((h.clientsByRoom room).foldl removeRoomStep h).clientsByName c.user = some c
      rw [g2 c.user]
      have hno : ¬ ∃ d ∈ h.clientsByRoom room, d.user = c.user := by
        rintro ⟨d, hd, hdu⟩
        obtain ⟨hdmem, -⟩ := hbucketMem d hd
        exact hnotbucket d hd (huniq d hdmem c hcmem hdu)
      rw [if_neg hno]
      exact (wf_getByName ⟨hnd, huniq, hname, hroom⟩ c.user c).mpr ⟨hcmem, rfl⟩
    · show c ∈ (if c.room = room then [] else _)
      rw [if_neg hcr, g3 c.room, hroom c.room]
      exact List.mem_filter.mpr ⟨hcmem, by simp⟩
  · intro r hr
    show (if r = room then [] else _) = _
    rw [if_neg hr, g3 r]
    rfl

/-- C9 witness: the amended removeRoom theorem applied to the sample
three-client registry and room `room1`. -/
theorem C9_removeRoom_witness : WF sampleHolder ∧ RemoveRoomSpec sampleHolder "room1" :=
  ⟨wf_sample, C9_removeRoom sampleHolder "room1" wf_sample⟩

/-- C6: the default `OnAuth` returns the second and third tokens without
error exactly when splitting the line on single spaces yields exactly three
tokens whose first is the literal `"a"`; every other shape yields an error
(`none`). -/
theorem C6_defaultAuth (line : List Char) :
    ((splitSep ' ' line).length = 3 ∧ (splitSep ' ' line).headD [] = ['a'] →
      OnAuth line = some ((splitSep ' ' line).getD 1 [], (splitSep ' ' line).getD 2 [])) ∧
    (¬((splitSep ' ' line).length = 3 ∧ (splitSep ' ' line).headD [] = ['a']) →
      OnAuth line = none) := by
  constructor
  · rintro ⟨h1, h2⟩
    rw [OnAuth, if_neg (fun habs => habs.elim (fun hx => hx h1) (fun hx => hx h2))]
  · intro hcon
    rw [OnAuth]
    by_cases hA : (splitSep ' ' line).length = 3
    · rw [if_pos (Or.inr (fun hB => hcon ⟨hA, hB⟩))]
    · rw [if_pos (Or.inl hA)]

/-- C6 witness: the well-formed line `a u r` authenticates as `(u, r)`, and
the malformed lines `hello` and `a  u r` (double space: four tokens) are
rejected. -/
theorem C6_defaultAuth_witness :
    ((splitSep ' ' ['a', ' ', 'u', ' ', 'r']).length = 3 ∧
      (splitSep ' ' ['a', ' ', 'u', ' ', 'r']).headD [] = ['a']) ∧
    OnAuth ['a', ' ', 'u', ' ', 'r'] = some (['u'], ['r']) ∧
    OnAuth ['h', 'e', 'l', 'l', 'o'] = none ∧
    OnAuth ['a', ' ', ' ', 'u', ' ', 'r'] = none :=
  ⟨⟨by decide, by decide⟩,
    (C6_defaultAuth ['a', ' ', 'u', ' ', 'r']).1 ⟨by decide, by decide⟩,
    (C6_defaultAuth ['h', 'e', 'l', 'l', 'o']).2 (by decide),
    (C6_defaultAuth ['a', ' ', ' ', 'u', ' ', 'r']).2 (by decide)⟩

/-- C7 counterexample: the claim "each delivered message is trimmed of
surrounding whitespace" is false: only the whole read buffer is trimmed, so
the buffer `"a\n b"` delivers the untrimmed segment `" b"`.  (Also, for a
buffer ending in a newline the delivered messages are the segments of the
trimmed buffer, not of the raw buffer: `"a\nb\n"` delivers two messages, not
three.) -/
theorem C7_cex_message_not_trimmed :
    connMessages ['a', '\n', ' ', 'b'] = [['a'], [' ', 'b']] ∧
    ¬(∀ m ∈ connMessages ['a', '\n', ' ', 'b'], trimSpace m = m) ∧
    connMessages ['a', '\n', 'b', '\n'] = [['a'], ['b']] ∧
    splitSep '\n' ['a', '\n', 'b', '\n'] = [['a'], ['b'], []] := by
  exact ⟨by decide, by decide, by decide, by decide⟩

/-- C7 (amended): for every read buffer the messages handed to the message
callback are exactly the newline-separated segments of the buffer after the
buffer as a whole is trimmed of surrounding whitespace, one request per
segment in order, each attributed to the connection's client and delivered
verbatim (with no per-message trimming). -/
theorem C7_message_delivery (c : Client) (buf : List Char) :
    connRequests c buf = (splitSep '\n' (trimSpace buf)).map (fun m => (c, m)) ∧
    (connRequests c buf).length = (connMessages buf).length ∧
    (∀ p ∈ connRequests c buf, p.1 = c) ∧
    (connRequests c buf).map Prod.snd = connMessages buf := by
  refine ⟨rfl, ?_, ?_, ?_⟩
  · rw [connRequests, List.length_map]
  · intro p hp
    rw [connRequests] at hp
    obtain ⟨m, -, rfl⟩ := List.mem_map.mp hp
    rfl
  · rw [connRequests, List.map_map]
    exact List.map_id _

end Mobster
